import Mathlib

/-!
Verification development for the sgidisklib EFS reader
(`src/sgidisklib/src/efs/{mod,raw_inode,raw_sb,raw_dir,dir}.rs`).

Shallow embedding conventions:
* Machine `u64`/`usize` values are `Nat`; arithmetic that the Rust source
  performs on `u64` and that can actually overflow there carries an
  explicit `% 2^64` (release-build wrapping semantics).  Where the
  on-disk field widths make overflow impossible (24-bit block numbers,
  8-bit lengths, `i16` extent counts) plain `Nat` arithmetic is exact.
* Signed fields (`i16`/`i32`) are `Int`; `u64::try_from` on them fails
  exactly on negative values.
* Fallible Rust functions return `Except Err`; `Err` mirrors the
  variants of `SgidiskLibReadError` (payload strings dropped) plus a
  `Panic` outcome marking places where the Rust code would panic
  (division by zero) rather than return an error.
* The byte source (`Read + Seek`) is a `Disk`: a byte length plus the
  byte at each absolute offset; `read_exact` fails with an I/O error
  when it would run past the end, and succeeds trivially for empty
  reads.
-/

set_option maxRecDepth 100000

deriving instance DecidableEq for Except

/-- Error taxonomy of `SgidiskLibReadError`, plus `Panic` for executions
on which the Rust code panics instead of returning. -/
inductive Err where
  | Unpack
  | IoErr
  | Value
  | Bounds
  | Panic
deriving DecidableEq, Repr

/-- Wrap-around modulus of 64-bit unsigned arithmetic. -/
def U64 : Nat := 2 ^ 64

/-- The 8-byte on-disk extent record (`raw_inode.rs`): 24-bit basic-block
number, 8-bit length in basic blocks, 24-bit logical block offset. -/
structure Extent where
  ex_bn : Nat
  ex_length : Nat
  ex_offset : Nat
deriving DecidableEq, Repr

/-- Parse one 8-byte chunk into an `Extent` (`Extent::parse_extent`):
the leading magic byte must be zero, then big-endian 24-bit `ex_bn`,
one byte `ex_length`, big-endian 24-bit `ex_offset`. -/
def Extent.parse_one (b0 b1 b2 b3 b4 b5 b6 b7 : Nat) : Except Err Extent :=
  if b0 = 0 then
    .ok ⟨b1 * 65536 + b2 * 256 + b3, b4, b5 * 65536 + b6 * 256 + b7⟩
  else
    .error .Unpack

/-- Parse a buffer already known to be chunked in 8-byte records. -/
def Extent.parse_chunks : List Nat → Except Err (List Extent)
  | [] => .ok []
  | b0 :: b1 :: b2 :: b3 :: b4 :: b5 :: b6 :: b7 :: rest => do
    let e ← Extent.parse_one b0 b1 b2 b3 b4 b5 b6 b7
    let es ← Extent.parse_chunks rest
    .ok (e :: es)
  | _ => .error .Unpack

/-- Parse one or more extents out of a byte buffer
(`Extent::parse_extents`): the buffer length must be a multiple of 8
(else `Value`), then every 8-byte chunk is parsed in order. -/
def Extent.parse_extents (buf : List Nat) : Except Err (List Extent) :=
  if buf.length % 8 ≠ 0 then .error .Value
  else Extent.parse_chunks buf

/-- The public `Efs` geometry record (`efs/mod.rs`).  All fields are
`u64` in the source. -/
structure Efs where
  sector_sz : Nat
  partition_start : Nat
  size : Nat
  cg_start : Nat
  cg_size : Nat
  cg_inodes : Nat
  cg_count : Nat
deriving DecidableEq, Repr

/-- Check that a read from an absolute offset is in bounds
(`Efs::check_read_absolute`).  The sums are `u64` additions in the
source and therefore wrap modulo `2^64`. -/
def Efs.check_read_absolute (efs : Efs) (start len : Nat) : Except Err Unit :=
  if start < efs.partition_start then .error .Bounds
  else if (efs.partition_start + efs.size) % U64 < (start + len) % U64 then .error .Bounds
  else .ok ()

/-- Absolute byte offset of a numbered basic block
(`Efs::block_absolute`), with `u64` wrap-around. -/
def Efs.block_absolute (efs : Efs) (block : Nat) : Nat :=
  (efs.partition_start + block * 512) % U64

/-- Check that a read from a numbered block is in bounds
(`Efs::check_read_block`). -/
def Efs.check_read_block (efs : Efs) (start_block len : Nat) : Except Err Unit :=
  efs.check_read_absolute (efs.block_absolute start_block) len

/-- Seek to a numbered basic block (`Efs::seek_block`): fails `Bounds`
when the block offset lies past the end of the filesystem. -/
def Efs.seek_block (efs : Efs) (block : Nat) : Except Err Unit :=
  if (efs.partition_start + efs.size) % U64 < efs.block_absolute block then .error .Bounds
  else .ok ()

/-- Relative offset of the start of a cylinder group
(`Efs::cg_start_rel`): `none` when the group number or its origin is
out of range. -/
def Efs.cg_start_rel (efs : Efs) (cg : Nat) : Option Nat :=
  if efs.cg_count ≤ cg then none
  else
    let rel := ((efs.cg_start + cg * efs.cg_size) * 512) % U64
    if efs.size < rel then none else some rel

/-- Relative offset of an inode (`Efs::inode_start_rel`).  The source
divides by `cg_inodes` here; the caller (`inode_start`) models the
division-by-zero panic, so this function is only meaningful for
`cg_inodes ≠ 0`. -/
def Efs.inode_start_rel (efs : Efs) (inode : Nat) : Option Nat :=
  let cg := inode / efs.cg_inodes
  match efs.cg_start_rel cg with
  | none => none
  | some cgs => some ((cgs + ((inode % efs.cg_inodes) * 128) % U64) % U64)

/-- Absolute byte offset of an inode (`Efs::inode_start`), or `Bounds`.
When `cg_inodes = 0`, the `inode / self.cg_inodes` in the source panics
with a division by zero, modelled as the `Panic` outcome. -/
def Efs.inode_start (efs : Efs) (inode : Nat) : Except Err Nat :=
  if efs.cg_inodes = 0 then .error .Panic
  else
    match efs.inode_start_rel inode with
    | some rel => .ok ((efs.partition_start + rel) % U64)
    | none => .error .Bounds

/-- Byte source (`Read + Seek`): an image is its byte length plus the
byte at each absolute offset. -/
structure Disk where
  len : Nat
  byte : Nat → Nat

/-- Model of `reader.read_exact` of `n` bytes starting at absolute
position `pos`.  An empty read always succeeds; otherwise the read must
stay inside the image, and yields the bytes at `pos, .., pos + n - 1`. -/
def readBytes (disk : Disk) (pos n : Nat) : Except Err (List Nat) :=
  if n = 0 then .ok []
  else if pos + n ≤ disk.len then .ok ((List.range n).map (fun j => disk.byte (pos + j)))
  else .error .IoErr

/-- Inode type enumeration (`InodeType` in `efs/mod.rs`). -/
inductive InodeType where
  | Fifo
  | CharacterSpecial
  | CharacterSpecialLink
  | Directory
  | BlockSpecial
  | BlockSpecialLink
  | RegularFile
  | SymbolicLink
  | Socket
deriving DecidableEq, Repr

/-- Decode the type bits of a mode word (`InodeType::try_from<u16>`):
the mode is masked with `INODE_TYPE_MASK = 0o170000 = 0xF000` and
matched against the nine known type values; anything else is an error
(mapped to `Value` by `Inode::try_from`). -/
def InodeType.of_mode (bit_type : Nat) : Except Err InodeType :=
  let itype_part := bit_type &&& 0o170000
  if itype_part = 0o010000 then .ok .Fifo
  else if itype_part = 0o020000 then .ok .CharacterSpecial
  else if itype_part = 0o030000 then .ok .CharacterSpecialLink
  else if itype_part = 0o040000 then .ok .Directory
  else if itype_part = 0o060000 then .ok .BlockSpecial
  else if itype_part = 0o070000 then .ok .BlockSpecialLink
  else if itype_part = 0o100000 then .ok .RegularFile
  else if itype_part = 0o120000 then .ok .SymbolicLink
  else if itype_part = 0o140000 then .ok .Socket
  else .error .Value

/-- Raw on-disk inode (`EfsInode` in `raw_inode.rs`): unsigned fields
as `Nat`, signed fields as `Int`, plus the 96-byte union data area. -/
structure EfsInode where
  di_mode : Nat
  di_nlink : Int
  di_uid : Nat
  di_gid : Nat
  di_size : Int
  di_atime : Int
  di_mtime : Int
  di_ctime : Int
  di_gen : Nat
  di_numextents : Int
  di_version : Nat
  di_spare : Nat
  data : List Nat
deriving DecidableEq, Repr

/-- The public `Inode` record (`efs/mod.rs`).  The three chrono
timestamps are modelled as the raw signed seconds: for every `i32`
second count `Local.timestamp_opt` yields a single instant, so the
conversion in `Inode::try_from` never fails and carries no extra
information. -/
structure Inode where
  inode_type : InodeType
  unix_mode : Nat
  owner_uid : Nat
  owner_gid : Nat
  size : Nat
  ctime : Int
  mtime : Int
  atime : Int
  num_extents : Nat
  extents : List Extent
deriving DecidableEq, Repr

/-- Build the `Inode` façade from a raw inode (`Inode::try_from`):
decode the type bits, reject a negative size or extent count, mask the
mode with the source constant `INODE_MODE_MASK = 0x07777` (a hex
literal in `raw_inode.rs`, hence the mask value `0x7777`), parse up to
`min(96, numextents*8)` bytes of direct extents and drop zero-length
ones. -/
def Inode.try_from (r : EfsInode) : Except Err Inode := do
  let inode_type ← InodeType.of_mode r.di_mode
  if r.di_size < 0 then .error .Value
  else
    let size := r.di_size.toNat
    let unix_mode := r.di_mode &&& 0x7777
    if r.di_numextents < 0 then .error .Value
    else
      let num_extents := r.di_numextents.toNat
      if 32767 < num_extents then .error .Value
      else
        let extent_sz := min 96 (num_extents * 8)
        let parsed ← Extent.parse_extents (r.data.take extent_sz)
        let extents := parsed.filter (fun e => decide (0 < e.ex_length))
        .ok { inode_type, unix_mode, owner_uid := r.di_uid, owner_gid := r.di_gid,
              size, ctime := r.di_ctime, mtime := r.di_mtime, atime := r.di_atime,
              num_extents, extents }

/-- Number of directly mappable extents (`EFS_DIRECTEXTENTS`). -/
def EFS_DIRECTEXTENTS : Nat := 12

/-- Inner block loop of `Inode::expand_extents`: starting at absolute
position `pos`, read `nblocks` blocks; each block reads
`min(512, remaining * 8)` bytes, parses them as extents and decreases
`remaining` by the number parsed. -/
def read_indirect (disk : Disk) : Nat → Nat → Nat → Except Err (List Extent)
  | 0, _pos, _rem => .ok []
  | k + 1, pos, rem => do
    let n := min 512 (rem * 8)
    let buf ← readBytes disk pos n
    let es ← Extent.parse_extents buf
    let rest ← read_indirect disk k (pos + n) (rem - es.length)
    .ok (es ++ rest)

/-- Outer loop of `Inode::expand_extents`: for each direct (indirect
descriptor) extent, bounds-check its whole byte region, seek to its
start, and read its blocks. -/
def expand_loop (disk : Disk) (efs : Efs) : List Extent → Nat → Except Err (List Extent)
  | [], _rem => .ok []
  | e :: rest, rem => do
    let start := efs.block_absolute e.ex_bn
    let sz := e.ex_length * 512
    let _ ← efs.check_read_absolute start sz
    let es ← read_indirect disk e.ex_length start rem
    let tail ← expand_loop disk efs rest (rem - es.length)
    .ok (es ++ tail)

/-- Expand indirect extents (`Inode::expand_extents`): with at most 12
extents the direct list is left untouched; otherwise the direct entries
are walked as indirect descriptors and the parsed extents replace the
list. -/
def expand_extents (disk : Disk) (efs : Efs) (num_extents : Nat)
    (extents : List Extent) : Except Err (List Extent) :=
  if num_extents ≤ EFS_DIRECTEXTENTS then .ok extents
  else expand_loop disk efs extents num_extents

/-- Stable insertion used by `sort_extents`: a new element goes after
all already-placed elements whose key is not greater. -/
def insert_extent (e : Extent) : List Extent → List Extent
  | [] => [e]
  | x :: xs => if x.ex_offset ≤ e.ex_offset then x :: insert_extent e xs else e :: x :: xs

/-- Sort extents ascending by `ex_offset` (`Inode::sort_extents`, a
stable `sort_by_key`; a stable sort's output is uniquely determined, so
this insertion sort computes the same list as the Rust sort). -/
def sort_extents (l : List Extent) : List Extent :=
  l.foldl (fun acc e => insert_extent e acc) []

/-- Accumulating contiguity fold of `Inode::check_extents`. -/
def check_extents_from (off : Nat) : List Extent → Except Err Unit
  | [] => .ok ()
  | e :: t => if e.ex_offset = off then check_extents_from (off + e.ex_length) t else .error .Value

/-- Check that each extent starts where the previous one left off
(`Inode::check_extents`).  The accumulator is a `u64` in the source,
but it only ever advances when it equals a parsed 24-bit `ex_offset`
and then grows by an 8-bit `ex_length`, so it can never overflow and
plain `Nat` arithmetic is exact. -/
def check_extents (l : List Extent) : Except Err Unit :=
  check_extents_from 0 l

/-- Normalize an inode's extents (`Inode::normalize_extents`): expand
indirect extents, sort, then contiguity-check, returning the inode with
the extent list replaced. -/
def normalize_extents (disk : Disk) (efs : Efs) (i : Inode) : Except Err Inode := do
  let ex ← expand_extents disk efs i.num_extents i.extents
  let sorted := sort_extents ex
  let _ ← check_extents sorted
  .ok { i with extents := sorted }

/-- Big-endian value of a byte list. -/
def beNat (l : List Nat) : Nat :=
  l.foldl (fun a b => a * 256 + b) 0

/-- Two's-complement reading of a `w`-bit big-endian unsigned value. -/
def toSigned (w v : Nat) : Int :=
  if v < 2 ^ (w - 1) then (v : Int) else (v : Int) - 2 ^ w

/-- Decode 128 inode bytes into the raw `EfsInode` record
(`EfsInode::parse_inode`); every field is fixed-width so the decode is
total given the 128 bytes. -/
def EfsInode.parse (bytes : List Nat) : EfsInode :=
  { di_mode := beNat (bytes.take 2)
    di_nlink := toSigned 16 (beNat ((bytes.drop 2).take 2))
    di_uid := beNat ((bytes.drop 4).take 2)
    di_gid := beNat ((bytes.drop 6).take 2)
    di_size := toSigned 32 (beNat ((bytes.drop 8).take 4))
    di_atime := toSigned 32 (beNat ((bytes.drop 12).take 4))
    di_mtime := toSigned 32 (beNat ((bytes.drop 16).take 4))
    di_ctime := toSigned 32 (beNat ((bytes.drop 20).take 4))
    di_gen := beNat ((bytes.drop 24).take 4)
    di_numextents := toSigned 16 (beNat ((bytes.drop 28).take 2))
    di_version := beNat ((bytes.drop 30).take 1)
    di_spare := beNat ((bytes.drop 31).take 1)
    data := (bytes.drop 32).take 96 }

/-- Read a raw inode from disk (`Efs::read_raw_inode`): resolve the
inode's absolute offset, bounds-check a 128-byte read, read and decode
it. -/
def read_raw_inode (disk : Disk) (efs : Efs) (inode : Nat) : Except Err EfsInode := do
  let off ← efs.inode_start inode
  let _ ← efs.check_read_absolute off 128
  let bytes ← readBytes disk off 128
  .ok (EfsInode.parse bytes)

/-- Read and normalize an `Inode` (`Efs::read_inode`). -/
def read_inode (disk : Disk) (efs : Efs) (inode : Nat) : Except Err Inode := do
  let raw ← read_raw_inode disk efs inode
  let i ← Inode.try_from raw
  normalize_extents disk efs i

/-- One step of the block iterator (`InodeBlockIter::next`): state is
`(extent index, block within extent)`; past the last extent the
iterator is exhausted, otherwise it yields `ex_bn + block` and advances
to the next block, wrapping to the next extent when the incremented
block count reaches `ex_length`. -/
def iter_next (i : Inode) : Nat × Nat → Option (Nat × (Nat × Nat))
  | (e, b) =>
    if i.extents.length ≤ e then none
    else
      let ext := i.extents.getD e ⟨0, 0, 0⟩
      let bn := ext.ex_bn + b
      let b' := b + 1
      if ext.ex_length ≤ b' then some (bn, (e + 1, 0)) else some (bn, (e, b'))

/-- Drive the iterator for at most `fuel` steps, collecting the yielded
block numbers. -/
def run_iter (i : Inode) : Nat → Nat × Nat → List Nat
  | 0, _ => []
  | f + 1, s =>
    match iter_next i s with
    | none => []
    | some (bn, s') => bn :: run_iter i f s'

/-- Sum of the `ex_length` fields of a list of extents. -/
def sum_lens (l : List Extent) : Nat :=
  (l.map Extent.ex_length).sum

/-- The full (finite) sequence of block numbers yielded by
`Inode::iter` from the initial state `(0, 0)`.  The fuel
`extents.length + sum_lens extents + 1` exceeds the number of yields,
so the list is the iterator's complete output (proved below). -/
def Inode.block_list (i : Inode) : List Nat :=
  run_iter i (i.extents.length + sum_lens i.extents + 1) (0, 0)

/-- A parsed directory block (`DirectoryBlock` in `raw_dir.rs`): the
two magic bytes have been checked, leaving `firstused`, `slots` and the
508-byte `space` region. -/
structure DirectoryBlock where
  firstused : Nat
  slots : Nat
  space : List Nat
deriving DecidableEq, Repr

/-- A directory entry (`DirectoryEntry` in `raw_dir.rs`): 32-bit
big-endian inode number, a name length byte, and that many name
bytes. -/
structure DirectoryEntry where
  inode : Nat
  d_namelen : Nat
  d_name : List Nat
deriving DecidableEq, Repr

/-- Decode 512 directory-block bytes (`DirectoryBlock::parse_directory_block`):
magic `BE EF`, then `firstused`, `slots`, and the 508-byte space. -/
def DirectoryBlock.parse (bytes : List Nat) : Except Err DirectoryBlock :=
  match bytes with
  | b0 :: b1 :: b2 :: b3 :: rest =>
    if b0 = 0xBE ∧ b1 = 0xEF then
      if rest.length < 508 then .error .Unpack
      else .ok ⟨b2, b3, rest.take 508⟩
    else .error .Unpack
  | _ => .error .Unpack

/-- Decode a `DirectoryEntry` from a byte tail (deku `from_bytes`):
4-byte big-endian inode, name length, then that many name bytes; too
few bytes is a codec failure. -/
def DirectoryEntry.parse (bytes : List Nat) : Except Err DirectoryEntry :=
  match bytes with
  | b0 :: b1 :: b2 :: b3 :: n :: rest =>
    if rest.length < n then .error .Unpack
    else .ok ⟨b0 * 16777216 + b1 * 65536 + b2 * 256 + b3, n, rest.take n⟩
  | _ => .error .Unpack

/-- Resolve one offset slot of a directory block (loop body of
`DirectoryBlock::dir_entries`): read the 1-byte compact offset, fail
`Bounds` below 2 (`HEADER_SZ >> 1`), compute the real offset
`(compact << 1) - HEADER_SZ`, fail `Bounds` at or past 508
(`SPACE_SZ`), else decode the entry there. -/
def resolve_slot (space : List Nat) (slot : Nat) : Except Err DirectoryEntry :=
  let compact := space.getD slot 0
  if compact < 2 then .error .Bounds
  else
    let offset := compact * 2 - 4
    if 508 ≤ offset then .error .Bounds
    else DirectoryEntry.parse (space.drop offset)

/-- Resolve slots `0, 1, ...` in order, stopping at the first error. -/
def resolve_slots (space : List Nat) : Nat → Nat → Except Err (List DirectoryEntry)
  | _slot, 0 => .ok []
  | slot, k + 1 => do
    let e ← resolve_slot space slot
    let es ← resolve_slots space (slot + 1) k
    .ok (e :: es)

/-- Get the entries of a directory block (`DirectoryBlock::dir_entries`):
`slots` may not exceed `MAX_ENTRIES = 508 / 8 = 63` (else `Value`),
then every slot is resolved in order. -/
def DirectoryBlock.dir_entries (db : DirectoryBlock) : Except Err (List DirectoryEntry) :=
  if 63 < db.slots then .error .Value
  else resolve_slots db.space 0 db.slots

/-- Whether a byte is a UTF-8 continuation byte. -/
def utf8Cont (b : Nat) : Bool :=
  decide (0x80 ≤ b ∧ b ≤ 0xBF)

/-- UTF-8 validity of a byte sequence, as checked by
`String::from_utf8` in `Directory::read_dir` (standard RFC 3629
well-formedness table). -/
def utf8Valid : List Nat → Bool
  | [] => true
  | b :: t =>
    if b < 0x80 then utf8Valid t
    else if 0xC2 ≤ b ∧ b ≤ 0xDF then
      match t with
      | c :: t' => utf8Cont c && utf8Valid t'
      | [] => false
    else if b = 0xE0 then
      match t with
      | c :: d :: t' => decide (0xA0 ≤ c ∧ c ≤ 0xBF) && utf8Cont d && utf8Valid t'
      | _ => false
    else if (0xE1 ≤ b ∧ b ≤ 0xEC) ∨ b = 0xEE ∨ b = 0xEF then
      match t with
      | c :: d :: t' => utf8Cont c && utf8Cont d && utf8Valid t'
      | _ => false
    else if b = 0xED then
      match t with
      | c :: d :: t' => decide (0x80 ≤ c ∧ c ≤ 0x9F) && utf8Cont d && utf8Valid t'
      | _ => false
    else if b = 0xF0 then
      match t with
      | c :: d :: e :: t' => decide (0x90 ≤ c ∧ c ≤ 0xBF) && utf8Cont d && utf8Cont e && utf8Valid t'
      | _ => false
    else if 0xF1 ≤ b ∧ b ≤ 0xF3 then
      match t with
      | c :: d :: e :: t' => utf8Cont c && utf8Cont d && utf8Cont e && utf8Valid t'
      | _ => false
    else if b = 0xF4 then
      match t with
      | c :: d :: e :: t' => decide (0x80 ≤ c ∧ c ≤ 0x8F) && utf8Cont d && utf8Cont e && utf8Valid t'
      | _ => false
    else false

/-- Strict lexicographic order on byte strings; this is exactly how
Rust orders the `String` keys of the `BTreeMap` (UTF-8 byte
comparison). -/
def bytesLt : List Nat → List Nat → Bool
  | [], [] => false
  | [], _ :: _ => true
  | _ :: _, [] => false
  | a :: as, b :: bs => if a < b then true else if b < a then false else bytesLt as bs

/-- The `BTreeMap<String, (u64, Inode)>` of `Directory`, modelled as an
association list sorted strictly ascending by key bytes. -/
def DirMap := List (List Nat × Nat × Inode)

instance : DecidableEq DirMap := by
  unfold DirMap
  infer_instance

/-- `BTreeMap::insert`: replace the value at an existing key, else
insert the key at its ordered position. -/
def mapInsert : DirMap → List Nat → Nat × Inode → DirMap
  | [], k, v => [(k, v)]
  | (k0, v0) :: rest, k, v =>
    if bytesLt k k0 then (k, v) :: (k0, v0) :: rest
    else if k = k0 then (k, v) :: rest
    else (k0, v0) :: mapInsert rest k v

/-- `BTreeMap::get`-style lookup. -/
def mapLookup : DirMap → List Nat → Option (Nat × Inode)
  | [], _ => none
  | (k0, v0) :: rest, k => if k = k0 then some v0 else mapLookup rest k

/-- Whether the keys of a `DirMap` are strictly ascending. -/
def keysSorted : DirMap → Bool
  | [] => true
  | [_] => true
  | (k0, _) :: (k1, v1) :: rest => bytesLt k0 k1 && keysSorted ((k1, v1) :: rest)

/-- The `Directory` result record (`efs/dir.rs`). -/
structure Directory where
  directory_inode : Inode
  entries : DirMap
deriving DecidableEq

/-- Process one directory entry (inner loop body of
`Directory::read_dir`): convert the name bytes (fail `Value` on invalid
UTF-8), read the referenced inode, insert the pair keyed by name. -/
def process_entry (disk : Disk) (efs : Efs) (m : DirMap) (e : DirectoryEntry) :
    Except Err DirMap :=
  if utf8Valid e.d_name then do
    let ino ← read_inode disk efs e.inode
    .ok (mapInsert m e.d_name (e.inode, ino))
  else .error .Value

/-- Process a block's entries in order. -/
def process_entries (disk : Disk) (efs : Efs) : DirMap → List DirectoryEntry → Except Err DirMap
  | m, [] => .ok m
  | m, e :: t => do
    let m' ← process_entry disk efs m e
    process_entries disk efs m' t

/-- Process one directory block (outer loop body of
`Directory::read_dir`): bounds-check and seek, read and decode the
512-byte block, then process its entries. -/
def process_block (disk : Disk) (efs : Efs) (m : DirMap) (blk : Nat) : Except Err DirMap := do
  let _ ← efs.check_read_block blk 512
  let _ ← efs.seek_block blk
  let bytes ← readBytes disk (efs.block_absolute blk) 512
  let db ← DirectoryBlock.parse bytes
  let ents ← db.dir_entries
  process_entries disk efs m ents

/-- Process the directory inode's blocks in iterator order. -/
def process_blocks (disk : Disk) (efs : Efs) : DirMap → List Nat → Except Err DirMap
  | m, [] => .ok m
  | m, b :: t => do
    let m' ← process_block disk efs m b
    process_blocks disk efs m' t

/-- Read a directory listing (`Directory::read_dir`): read the inode,
reject non-directories with `Value` before touching any block, then
fold every block's entries into the name-keyed map. -/
def read_dir (disk : Disk) (efs : Efs) (inode : Nat) : Except Err Directory := do
  let directory_inode ← read_inode disk efs inode
  if directory_inode.inode_type ≠ .Directory then .error .Value
  else do
    let entries ← process_blocks disk efs [] directory_inode.block_list
    .ok ⟨directory_inode, entries⟩

/-- The superblock fields consumed by `TryFrom<(&EfsSuperblock, u64)>
for Efs` (`raw_sb.rs` declares further fields — magic, dirty flag,
free counts, names — that the conversion never reads; they are omitted
from the record, not from the conversion logic). -/
structure EfsSuperblock where
  fs_size : Int
  fs_firstcg : Int
  fs_cgfsize : Int
  fs_cgisize : Int
  fs_ncg : Int
deriving DecidableEq, Repr

/-- Convert a raw superblock plus sector size to an `Efs`
(`TryFrom<(&raw_sb::EfsSuperblock, u64,)> for Efs`): each signed field
is narrowed to unsigned, failing `Value` on negatives; the filesystem
size is `fs_size * sector_sz` bytes (a `u64` product, wrapping);
`fs_cgisize * 512` must be non-negative and divisible by the 128-byte
inode size, yielding `cg_inodes`; `partition_start` is left 0 for the
caller. -/
def efs_try_from (sb : EfsSuperblock) (sector_sz : Nat) : Except Err Efs :=
  if sb.fs_size < 0 then .error .Value
  else
    let size := (sb.fs_size.toNat * sector_sz) % U64
    if sb.fs_firstcg < 0 then .error .Value
    else if sb.fs_cgfsize < 0 then .error .Value
    else
      let fs_cgisize_bytes : Int := sb.fs_cgisize * 512
      if fs_cgisize_bytes < 0 then .error .Value
      else if fs_cgisize_bytes % 128 ≠ 0 then .error .Value
      else if sb.fs_ncg < 0 then .error .Value
      else
        .ok { sector_sz, partition_start := 0, size,
              cg_start := sb.fs_firstcg.toNat, cg_size := sb.fs_cgfsize.toNat,
              cg_inodes := fs_cgisize_bytes.toNat / 128, cg_count := sb.fs_ncg.toNat }

/-- Geometry fixture used by the concrete filesystem images below:
partition at offset 0, 4096 bytes of filesystem, first cylinder group
at basic block 1, 8 blocks per group, 4 inodes per group, 2 groups. -/
def efsT : Efs :=
  { sector_sz := 512, partition_start := 0, size := 4096,
    cg_start := 1, cg_size := 8, cg_inodes := 4, cg_count := 2 }

/-- Raw 128 inode bytes for a regular file (mode `0o100644`) with no
extents, used as the target of directory entries in the fixtures. -/
def fileInodeBytes : List Nat :=
  [0x81, 0xA4, 0, 1, 0, 0, 0, 0,
   0, 0, 0, 0, 0, 0, 0, 0, 0, 0, 0, 0, 0, 0, 0, 0,
   0, 0, 0, 0, 0, 0, 0, 0] ++ List.replicate 96 0

/-- The `Inode` façade value that `fileInodeBytes` decodes and
normalizes to. -/
def fileInode : Inode :=
  { inode_type := .RegularFile, unix_mode := 0x0124, owner_uid := 0, owner_gid := 0,
    size := 0, ctime := 0, mtime := 0, atime := 0, num_extents := 0, extents := [] }

/-- Raw inode record of the spec's boundary scenario 3: a directory
with `mode = 0o040755` and one direct extent `(1000, 1, 0)`. -/
def rawDirInode : EfsInode :=
  { di_mode := 0o040755, di_nlink := 1, di_uid := 0, di_gid := 0, di_size := 512,
    di_atime := 0, di_mtime := 0, di_ctime := 0, di_gen := 0, di_numextents := 1,
    di_version := 0, di_spare := 0,
    data := [0, 0, 3, 232, 1, 0, 0, 0] ++ List.replicate 88 0 }

/-- Raw 128 inode bytes of a regular file claiming `numextents = 13`
with an all-zero direct region. -/
def shortfallInodeBytes : List Nat :=
  [0x81, 0xA4, 0, 1, 0, 0, 0, 0,
   0, 0, 0, 0, 0, 0, 0, 0, 0, 0, 0, 0, 0, 0, 0, 0,
   0, 0, 0, 0, 0, 13, 0, 0] ++ List.replicate 96 0

/-- Image for the indirect-shortfall scenario: only inode 0 at byte
512, with `numextents = 13` and an all-zero direct region, so every
direct descriptor is filtered out and the expansion walks no blocks. -/
def disk3 : Disk :=
  ⟨640, fun i => if i < 512 then 0 else shortfallInodeBytes.getD (i - 512) 0⟩

/-- Raw 128 inode bytes of a regular file with `numextents = 13` and a
single indirect descriptor extent `(bn 2, length 1, offset 13)`. -/
def indirInodeBytes : List Nat :=
  [0x81, 0xA4, 0, 1, 0, 0, 0, 0,
   0, 0, 0, 0, 0, 0, 0, 0, 0, 0, 0, 0, 0, 0, 0, 0,
   0, 0, 0, 0, 0, 13, 0, 0] ++
  ([0, 0, 0, 2, 1, 0, 0, 13] ++ List.replicate 88 0)

/-- The 104 bytes of 13 packed extents: twelve of length 1 at logical
offsets 0..11 with block numbers 100..111, then a zero-length extent at
offset 12 with block number 200. -/
def indirExtentBytes : List Nat :=
  (List.range 12).flatMap (fun i => [0, 0, 0, 100 + i, 1, 0, 0, i]) ++
  [0, 0, 0, 200, 0, 0, 0, 12]

/-- Image for the zero-length-extent scenario: inode 0 at byte 512 is
`indirInodeBytes`; basic block 2 (byte 1024) holds the 13 packed
extents of `indirExtentBytes`. -/
def disk5 : Disk :=
  ⟨1128, fun i =>
    if i < 512 then 0
    else if i < 640 then indirInodeBytes.getD (i - 512) 0
    else if i < 1024 then 0
    else indirExtentBytes.getD (i - 1024) 0⟩

/-- The 508-byte space region of the fixture directory block: slot
offsets 252 and 247, entry `inode 1, name "b"` at space offset 490 and
entry `inode 0, name "a"` at space offset 500. -/
def space8 : List Nat :=
  [252, 247] ++ List.replicate 488 0 ++
  [0, 0, 0, 1, 1, 98] ++ List.replicate 4 0 ++ [0, 0, 0, 0, 1, 97] ++ [0, 0]

/-- Raw 128 inode bytes of the fixture directory: mode `0o040755`, one
direct extent `(bn 4, length 1, offset 0)`. -/
def dirInodeBytes : List Nat :=
  [0x41, 0xED, 0, 2, 0, 0, 0, 0,
   0, 0, 2, 0, 0, 0, 0, 0, 0, 0, 0, 0, 0, 0, 0, 0,
   0, 0, 0, 0, 0, 1, 0, 0] ++
  ([0, 0, 0, 4, 1, 0, 0, 0] ++ List.replicate 88 0)

/-- Image for the directory scenarios: regular files at inodes 0 and 1,
a directory at inode 2 whose single extent points at basic block 4
(byte 2048), which holds a directory block listing `a -> 0` and
`b -> 1`. -/
def disk8 : Disk :=
  ⟨2560, fun i =>
    if i < 512 then 0
    else if i < 640 then fileInodeBytes.getD (i - 512) 0
    else if i < 768 then fileInodeBytes.getD (i - 640) 0
    else if i < 896 then dirInodeBytes.getD (i - 768) 0
    else if i < 2048 then 0
    else ([0xBE, 0xEF, 0, 2] ++ space8).getD (i - 2048) 0⟩

/-- Blocks contributed by one extent to the iterator's output:
`max 1 ex_length` consecutive block numbers starting at `ex_bn` (a
zero-length extent still contributes its base block once, see the
iterator theorems below). -/
def extBlocks (x : Extent) : List Nat :=
  (List.range (max 1 x.ex_length)).map (fun k => x.ex_bn + k)

/-- The geometry fixture with `cg_inodes = 0`, as produced by
`efs_try_from` from a superblock with `fs_cgisize = 0`. -/
def efs6 : Efs :=
  { efsT with cg_inodes := 0 }

/-- The `Inode` value that the fixture directory (inode 2 of `disk8`)
decodes and normalizes to; its `unix_mode` is
`0o040755 & 0x7777 = 16741` under the source's mask. -/
def dirInodeVal : Inode :=
  { inode_type := .Directory, unix_mode := 16741, owner_uid := 0, owner_gid := 0,
    size := 512, ctime := 0, mtime := 0, atime := 0, num_extents := 1,
    extents := [⟨4, 1, 0⟩] }

/-- A small normalized inode with two positive-length extents, used as
an iterator witness. -/
def inodeW : Inode :=
  { inode_type := .RegularFile, unix_mode := 0o644, owner_uid := 0, owner_gid := 0,
    size := 1536, ctime := 0, mtime := 0, atime := 0, num_extents := 2,
    extents := [⟨10, 2, 0⟩, ⟨20, 1, 2⟩] }

/-- The `Inode` value that the shortfall image's inode 0 decodes and
normalizes to: 13 claimed extents, none actually present. -/
def shortInodeVal : Inode :=
  { inode_type := .RegularFile, unix_mode := 292, owner_uid := 0, owner_gid := 0,
    size := 0, ctime := 0, mtime := 0, atime := 0, num_extents := 13, extents := [] }

/-- The `Directory` value produced by reading the fixture directory:
its two entries, keyed by name bytes, in ascending order. -/
def dir8Val : Directory :=
  { directory_inode := dirInodeVal,
    entries := [([97], 0, fileInode), ([98], 1, fileInode)] }

/-- Directory entry `a -> inode 0` of the duplicate-name scenario. -/
def entA0 : DirectoryEntry :=
  { inode := 0, d_namelen := 1, d_name := [97] }

/-- Directory entry `a -> inode 1` of the duplicate-name scenario: same
name as `entA0`, different inode. -/
def entA1 : DirectoryEntry :=
  { inode := 1, d_namelen := 1, d_name := [97] }

/-- The map left by processing `entA0` then `entA1`: one key, carrying
the later entry's pair. -/
def mDup : DirMap :=
  [([97], 1, fileInode)]

/-- The spec's boundary-scenario-2 superblock: fs_size 100000,
fs_firstcg 2, fs_cgfsize 5000, fs_cgisize 2, fs_ncg 20. -/
def sbW : EfsSuperblock :=
  { fs_size := 100000, fs_firstcg := 2, fs_cgfsize := 5000, fs_cgisize := 2, fs_ncg := 20 }

/-- The geometry `sbW` converts to at sector size 512. -/
def efsW : Efs :=
  { sector_sz := 512, partition_start := 0, size := 51200000,
    cg_start := 2, cg_size := 5000, cg_inodes := 8, cg_count := 20 }

/- ------------------------------------------------------------------
Theorems settling the claims.
------------------------------------------------------------------ -/

/-- Provenance of the fixture file inode: the raw bytes decode to the
stated façade value. -/
theorem fileInode_decode : Inode.try_from (EfsInode.parse fileInodeBytes) = .ok fileInode := by
  decide

/-- Provenance of the zero-`cg_inodes` geometry: the superblock
conversion accepts `fs_cgisize = 0` and produces it. -/
theorem efs6_from_superblock : efs_try_from ⟨8, 1, 8, 0, 2⟩ 512 = .ok efs6 := by
  decide

/-- C1.  The claim says `unix_mode = mode & 0x0FFF`, and that
`mode = 0o040755` parses to `unix_mode = 0o0755`.  The source masks
with `INODE_MODE_MASK = 0x07777` — a hexadecimal literal where the
octal `0o7777 = 0x0FFF` was clearly intended ("File mode mask") — so
the directory inode of the spec's own boundary scenario decodes with
`unix_mode = 0o040755 & 0x7777 = 16741 = 0o040545`, not `0o0755`. -/
theorem c1_mode_mask_bug :
    (Inode.try_from rawDirInode).map (fun i => (i.inode_type, i.unix_mode)) =
      .ok (InodeType.Directory, 16741) ∧
    rawDirInode.di_mode &&& 0x0FFF = 0o0755 ∧ (16741 : Nat) ≠ 0o0755 := by
  decide

/-- C2 counterexample.  The claim requires `check_read_absolute(o, l)`
to fail with `Bounds` whenever `o + l > partition_start + size`; at
`o = 2^64 - 1, l = 2` the 64-bit sum wraps to `1` and the check
succeeds although `o + l` far exceeds `partition_start + size`. -/
theorem c2_overflow_counterexample :
    (⟨512, 5, 10, 0, 0, 0, 0⟩ : Efs).check_read_absolute (2 ^ 64 - 1) 2 = .ok () ∧
    ¬ ((2 ^ 64 - 1) + 2 ≤ 5 + 10) := by
  constructor
  · decide
  · decide

/-- C2 as amended: whenever neither `o + l` nor
`partition_start + size` overflows a `u64`, `check_read_absolute(o, l)`
succeeds exactly when `partition_start ≤ o` and
`o + l ≤ partition_start + size`, and returns a `Bounds` error
otherwise. -/
theorem c2_check_read_absolute_iff (efs : Efs) (o l : Nat)
    (h1 : o + l < U64) (h2 : efs.partition_start + efs.size < U64) :
    (efs.check_read_absolute o l = .ok () ↔
      efs.partition_start ≤ o ∧ o + l ≤ efs.partition_start + efs.size) ∧
    (¬ (efs.partition_start ≤ o ∧ o + l ≤ efs.partition_start + efs.size) →
      efs.check_read_absolute o l = .error .Bounds) := by
  unfold Efs.check_read_absolute
  rw [Nat.mod_eq_of_lt h1, Nat.mod_eq_of_lt h2]
  split_ifs with ha hb
  · exact ⟨by simp; omega, fun _ => rfl⟩
  · exact ⟨by simp; omega, fun _ => rfl⟩
  · exact ⟨by simp; omega, fun hn => absurd ⟨Nat.le_of_not_lt ha, Nat.le_of_not_lt hb⟩ hn⟩

/-- C2 witness: the amended equivalence applied to the fixture
geometry at an in-bounds read. -/
theorem c2_witness :
    (efsT.check_read_absolute 512 128 = .ok () ↔
      efsT.partition_start ≤ 512 ∧ 512 + 128 ≤ efsT.partition_start + efsT.size) ∧
    (¬ (efsT.partition_start ≤ 512 ∧ 512 + 128 ≤ efsT.partition_start + efsT.size) →
      efsT.check_read_absolute 512 128 = .error .Bounds) :=
  c2_check_read_absolute_iff efsT 512 128 (by decide) (by decide)

/-- C6 counterexample.  The claim says `inode_start(n)` either returns
the derived offset or fails with `Bounds`; on an `Efs` with
`inodes_per_cg = 0` (which `efs_try_from` produces from a superblock
with `fs_cgisize = 0`) the division `n / cg_inodes` in the source
panics instead. -/
theorem c6_div_zero_panic :
    efs6.inode_start 0 = .error .Panic ∧ Err.Panic ≠ Err.Bounds := by
  constructor
  · decide
  · decide

/-- C6 as amended: for `inodes_per_cg > 0`, and offsets that fit in a
`u64`, `inode_start(n)` computes `cg = n / inodes_per_cg`, the group
origin `(cg_start + cg * cg_size) * 512`, the in-group offset
`(n mod inodes_per_cg) * 128`, failing `Bounds` when `cg ≥ cg_count` or
the origin is past the filesystem size, and otherwise returns
`partition_start` plus origin plus in-group offset. -/
theorem c6_inode_start_amended (efs : Efs) (n : Nat)
    (h0 : 0 < efs.cg_inodes)
    (h1 : (efs.cg_start + (n / efs.cg_inodes) * efs.cg_size) * 512 < U64)
    (h2 : efs.partition_start + (efs.cg_start + (n / efs.cg_inodes) * efs.cg_size) * 512
          + (n % efs.cg_inodes) * 128 < U64) :
    efs.inode_start n =
      if efs.cg_count ≤ n / efs.cg_inodes then .error .Bounds
      else if efs.size < (efs.cg_start + (n / efs.cg_inodes) * efs.cg_size) * 512 then
        .error .Bounds
      else
        .ok (efs.partition_start + (efs.cg_start + (n / efs.cg_inodes) * efs.cg_size) * 512
             + (n % efs.cg_inodes) * 128) := by
  have h0' : efs.cg_inodes ≠ 0 := Nat.pos_iff_ne_zero.mp h0
  have hioff : (n % efs.cg_inodes) * 128 % U64 = (n % efs.cg_inodes) * 128 :=
    Nat.mod_eq_of_lt (by omega)
  have hsum : ((efs.cg_start + (n / efs.cg_inodes) * efs.cg_size) * 512
      + (n % efs.cg_inodes) * 128) % U64
      = (efs.cg_start + (n / efs.cg_inodes) * efs.cg_size) * 512
      + (n % efs.cg_inodes) * 128 := Nat.mod_eq_of_lt (by omega)
  have htot : (efs.partition_start + ((efs.cg_start + (n / efs.cg_inodes) * efs.cg_size) * 512
      + (n % efs.cg_inodes) * 128)) % U64
      = efs.partition_start + ((efs.cg_start + (n / efs.cg_inodes) * efs.cg_size) * 512
      + (n % efs.cg_inodes) * 128) := Nat.mod_eq_of_lt (by omega)
  by_cases hcg : efs.cg_count ≤ n / efs.cg_inodes
  · have hrel : efs.inode_start_rel n = none := by
      simp only [Efs.inode_start_rel, Efs.cg_start_rel, if_pos hcg]
    simp only [Efs.inode_start, if_neg h0', hrel, if_pos hcg]
  · by_cases hsz : efs.size < (efs.cg_start + (n / efs.cg_inodes) * efs.cg_size) * 512
    · have hrel : efs.inode_start_rel n = none := by
        simp only [Efs.inode_start_rel, Efs.cg_start_rel, if_neg hcg, Nat.mod_eq_of_lt h1,
          if_pos hsz]
      simp only [Efs.inode_start, if_neg h0', hrel, if_neg hcg, if_pos hsz]
    · have hrel : efs.inode_start_rel n =
          some ((efs.cg_start + (n / efs.cg_inodes) * efs.cg_size) * 512
            + (n % efs.cg_inodes) * 128) := by
        simp only [Efs.inode_start_rel, Efs.cg_start_rel, if_neg hcg, Nat.mod_eq_of_lt h1,
          if_neg hsz, hioff, hsum]
      simp only [Efs.inode_start, if_neg h0', hrel, if_neg hcg, if_neg hsz, htot,
        Nat.add_assoc]

/-- C6 witness: the amended characterization applied to the fixture
geometry at inode 5, whose cylinder-group origin lies past the
filesystem size, so the lookup fails `Bounds`. -/
theorem c6_witness : efsT.inode_start 5 = .error .Bounds :=
  (c6_inode_start_amended efsT 5 (by decide) (by decide) (by decide)).trans (by decide)

/-- A successful `read_exact` returns exactly the requested byte
count. -/
theorem readBytes_length (disk : Disk) (pos n : Nat) (bs : List Nat)
    (h : readBytes disk pos n = .ok bs) : bs.length = n := by
  unfold readBytes at h
  split_ifs at h with h0 h1
  · cases h
    simp [h0]
  · cases h
    simp

/-- A successfully chunk-parsed buffer yields one extent per 8
bytes. -/
theorem parse_chunks_length : ∀ (l : List Nat) (es : List Extent),
    Extent.parse_chunks l = .ok es → es.length = l.length / 8 := by
  intro l
  induction l using Extent.parse_chunks.induct with
  | case1 =>
    intro es h
    simp only [Extent.parse_chunks] at h
    cases h
    rfl
  | case2 b0 b1 b2 b3 b4 b5 b6 b7 rest ih =>
    intro es h
    simp only [Extent.parse_chunks, bind, Except.bind] at h
    cases hp : Extent.parse_one b0 b1 b2 b3 b4 b5 b6 b7 with
    | error e => rw [hp] at h; cases h
    | ok e =>
      rw [hp] at h
      cases hc : Extent.parse_chunks rest with
      | error e2 => rw [hc] at h; cases h
      | ok es' =>
        rw [hc] at h
        cases h
        have := ih es' hc
        simp only [List.length_cons, this]
        omega
  | case3 l h1 h2 =>
    intro es h
    simp only [Extent.parse_chunks] at h
    cases h

/-- `Extent::parse_extents` yields one extent per 8 bytes of input. -/
theorem parse_extents_length (buf : List Nat) (es : List Extent)
    (h : Extent.parse_extents buf = .ok es) : es.length = buf.length / 8 := by
  unfold Extent.parse_extents at h
  split_ifs at h with h8
  exact parse_chunks_length buf es h

/-- The inner block walk of the indirect expansion parses exactly
`min 64 remaining` extents per block, hence `min (64 k) remaining` over
`k` blocks. -/
theorem read_indirect_length (disk : Disk) : ∀ (k pos rem : Nat) (l : List Extent),
    read_indirect disk k pos rem = .ok l → l.length = min (64 * k) rem := by
  intro k
  induction k with
  | zero =>
    intro pos rem l h
    simp only [read_indirect] at h
    cases h
    simp
  | succ k ih =>
    intro pos rem l h
    simp only [read_indirect, bind, Except.bind] at h
    cases hb : readBytes disk pos (min 512 (rem * 8)) with
    | error e => rw [hb] at h; cases h
    | ok buf =>
      rw [hb] at h
      dsimp only at h
      cases hp : Extent.parse_extents buf with
      | error e => rw [hp] at h; cases h
      | ok es =>
        rw [hp] at h
        dsimp only at h
        cases hr : read_indirect disk k (pos + min 512 (rem * 8)) (rem - es.length) with
        | error e => rw [hr] at h; cases h
        | ok rest =>
          rw [hr] at h
          cases h
          have hbl := readBytes_length disk pos _ buf hb
          have hel := parse_extents_length buf es hp
          have hrl := ih _ _ _ hr
          simp only [List.length_append]
          omega

/-- The outer walk of the indirect expansion parses exactly
`min (64 * total blocks) remaining` extents. -/
theorem expand_loop_length (disk : Disk) (efs : Efs) :
    ∀ (exts : List Extent) (rem : Nat) (l : List Extent),
      expand_loop disk efs exts rem = .ok l → l.length = min (64 * sum_lens exts) rem := by
  intro exts
  induction exts with
  | nil =>
    intro rem l h
    simp only [expand_loop] at h
    cases h
    simp [sum_lens]
  | cons e rest ih =>
    intro rem l h
    simp only [expand_loop, bind, Except.bind] at h
    cases hc : efs.check_read_absolute (efs.block_absolute e.ex_bn) (e.ex_length * 512) with
    | error e2 => rw [hc] at h; cases h
    | ok u =>
      rw [hc] at h
      cases hi : read_indirect disk e.ex_length (efs.block_absolute e.ex_bn) rem with
      | error e2 => rw [hi] at h; cases h
      | ok es =>
        rw [hi] at h
        dsimp only at h
        cases ht : expand_loop disk efs rest (rem - es.length) with
        | error e2 => rw [ht] at h; cases h
        | ok tail =>
          rw [ht] at h
          cases h
          have h1 := read_indirect_length disk _ _ _ _ hi
          have h2 := ih _ _ ht
          simp only [List.length_append, sum_lens, List.map_cons, List.sum_cons] at *
          omega

/-- C3 counterexample.  The claim says the total number of extents
parsed from the indirect blocks must equal `numextents` and that
normalization fails otherwise.  On the image `disk3` the inode claims
13 extents (forcing the indirect path) while its direct region is all
zeros, so expansion walks no blocks and parses 0 extents — yet
`read_inode` succeeds, returning an inode with `num_extents = 13` and
an empty extent list. -/
theorem c3_shortfall_counterexample :
    (read_inode disk3 efsT 0).map (fun i => (i.num_extents, i.extents.length)) = .ok (13, 0) ∧
    EFS_DIRECTEXTENTS < 13 ∧ (0 : Nat) ≠ 13 :=
  ⟨by decide, by decide, by decide⟩

/-- C3 as amended: for `numextents > 12` the direct entries are walked
as indirect descriptors, each block reading `min(512, remaining * 8)`
bytes and parsing that many extents; the total parsed is therefore
`min(64 * Σ ex_length of the descriptors, numextents)`.  No check
compares this total with `numextents`: a shortfall leaves expansion
(and, if the parsed extents are contiguous, all of normalization)
successful. -/
theorem c3_expand_count (disk : Disk) (efs : Efs) (num : Nat) (exts l : List Extent)
    (hgt : EFS_DIRECTEXTENTS < num)
    (h : expand_extents disk efs num exts = .ok l) :
    l.length = min (64 * sum_lens exts) num := by
  unfold expand_extents at h
  rw [if_neg (by omega)] at h
  exact expand_loop_length disk efs exts num l h

/-- C3 witness: the count formula applied to the shortfall image,
where 0 descriptors parse `min (64 * 0) 13 = 0` extents. -/
theorem c3_witness : ([] : List Extent).length = min (64 * sum_lens []) 13 :=
  c3_expand_count disk3 efsT 13 [] [] (by decide) (by decide)

/-- Past the last extent the iterator yields nothing, whatever the
fuel. -/
theorem run_iter_past (i : Inode) : ∀ (f e b : Nat), i.extents.length ≤ e →
    run_iter i f (e, b) = [] := by
  intro f e b h
  cases f with
  | zero => rfl
  | succ f => simp only [run_iter, iter_next, if_pos h]

/-- Shifting a consecutive-block range by one: the first block splits
off and the rest re-index. -/
theorem range_map_shift (A c r : Nat) :
    (List.range (r + 1)).map (fun k => A + (c + k)) =
      (A + c) :: (List.range r).map (fun k => A + (c + 1 + k)) := by
  rw [List.range_succ_eq_map]
  simp only [List.map_cons, List.map_map]
  refine congrArg₂ _ (by omega) (List.map_congr_left fun k _ => ?_)
  simp only [Function.comp_apply]
  omega

/-- Driving the iterator through one extent of positive length: with a
continuation `L` produced from state `(e + 1, 0)` under enough fuel,
the remaining `r` blocks of extent `e` are yielded first. -/
theorem run_iter_within (i : Inode) (x : Extent) (e : Nat) (hx : i.extents[e]? = some x)
    (L : List Nat) (fL : Nat)
    (hL : ∀ f, fL ≤ f → run_iter i f (e + 1, 0) = L) :
    ∀ (r c f : Nat), c + r = x.ex_length → 0 < r → r + fL ≤ f →
      run_iter i f (e, c) = (List.range r).map (fun k => x.ex_bn + (c + k)) ++ L := by
  intro r
  induction r with
  | zero => omega
  | succ r' ih =>
    intro c f hc hr hf
    have he : e < i.extents.length := (List.getElem?_eq_some_iff.mp hx).1
    have hgd : i.extents.getD e ⟨0, 0, 0⟩ = x := by
      rw [List.getD_eq_getElem?_getD, hx]
      rfl
    cases f with
    | zero => omega
    | succ f' =>
      cases r' with
      | zero =>
        have hle : x.ex_length ≤ c + 1 := by omega
        have hstep : run_iter i (f' + 1) (e, c) = (x.ex_bn + c) :: run_iter i f' (e + 1, 0) := by
          simp [run_iter, iter_next, Nat.not_le.mpr he, hx, hle]
        rw [hstep, hL f' (by omega), range_map_shift]
        simp
      | succ r'' =>
        have hle : ¬ x.ex_length ≤ c + 1 := by omega
        have hstep : run_iter i (f' + 1) (e, c) = (x.ex_bn + c) :: run_iter i f' (e, c + 1) := by
          simp [run_iter, iter_next, Nat.not_le.mpr he, hx, hle]
        rw [hstep, ih (c + 1) f' (by omega) (by omega) (by omega)]
        conv_rhs => rw [range_map_shift]
        rfl

/-- The iterator's full output from extent index `e` on: each remaining
extent contributes `max 1 ex_length` consecutive blocks from its base
(`max` because a zero-length extent still yields its base block once
before the iterator advances). -/
theorem run_iter_spec (i : Inode) : ∀ (todo : List Extent) (e f : Nat),
    i.extents.drop e = todo →
    (todo.map (fun x => max 1 x.ex_length)).sum ≤ f →
    run_iter i f (e, 0) = todo.flatMap extBlocks := by
  intro todo
  induction todo with
  | nil =>
    intro e f hd _
    rw [run_iter_past i f e 0 (List.drop_eq_nil_iff.mp hd)]
    rfl
  | cons x ts ih =>
    intro e f hd hf
    have hx : i.extents[e]? = some x := by
      have h0 : (i.extents.drop e)[0]? = some x := by rw [hd]; simp
      rw [List.getElem?_drop] at h0
      simpa using h0
    have he : e < i.extents.length := (List.getElem?_eq_some_iff.mp hx).1
    have hgd : i.extents.getD e ⟨0, 0, 0⟩ = x := by
      rw [List.getD_eq_getElem?_getD, hx]
      rfl
    have hts : i.extents.drop (e + 1) = ts := by
      have := List.drop_drop 1 e i.extents
      rw [hd] at this
      simpa using this.symm
    simp only [List.map_cons, List.sum_cons] at hf
    rw [List.flatMap_cons]
    cases hlen : x.ex_length with
    | zero =>
      cases f with
      | zero => omega
      | succ f' =>
        have hstep : run_iter i (f' + 1) (e, 0) = x.ex_bn :: run_iter i f' (e + 1, 0) := by
          simp [run_iter, iter_next, Nat.not_le.mpr he, hx, hlen]
        rw [hstep, ih (e + 1) f' hts (by omega)]
        have h10 : max 1 (0 : Nat) = 1 := by decide
        simp [extBlocks, hlen, h10, List.range_succ]
    | succ m =>
      have hcall := run_iter_within i x e hx (ts.flatMap extBlocks)
        ((ts.map (fun x => max 1 x.ex_length)).sum)
        (fun f hfl => ih (e + 1) f hts hfl)
        (m + 1) 0 f (by omega) (by omega) (by omega)
      rw [hcall]
      have : extBlocks x = (List.range (m + 1)).map (fun k => x.ex_bn + (0 + k)) := by
        unfold extBlocks
        rw [hlen]
        rw [Nat.max_eq_right (by omega)]
        exact List.map_congr_left fun k _ => by omega
      rw [this]

/-- Per-extent yield bound: the total `Σ max 1 ex_length` fits below
the fuel used by `Inode.block_list`. -/
theorem max_one_sum_le (l : List Extent) :
    (l.map (fun x => max 1 x.ex_length)).sum ≤ l.length + sum_lens l := by
  induction l with
  | nil => simp [sum_lens]
  | cons x ts ih =>
    simp only [List.map_cons, List.sum_cons, List.length_cons, sum_lens] at *
    omega

/-- With only positive-length extents, each extent's contribution is
exactly its `ex_length` blocks. -/
theorem flatMap_extBlocks_pos (l : List Extent) (hpos : ∀ x ∈ l, 0 < x.ex_length) :
    l.flatMap extBlocks =
      l.flatMap (fun x => (List.range x.ex_length).map (fun k => x.ex_bn + k)) := by
  induction l with
  | nil => rfl
  | cons x ts ih =>
    simp only [List.flatMap_cons]
    rw [ih (fun y hy => hpos y (List.mem_cons_of_mem x hy))]
    have hx : extBlocks x = (List.range x.ex_length).map (fun k => x.ex_bn + k) := by
      unfold extBlocks
      rw [Nat.max_eq_right (hpos x (List.mem_cons_self x ts))]
    rw [hx]

/-- With only positive-length extents, the iterator output counts
`Σ ex_length` blocks. -/
theorem flatMap_extBlocks_length (l : List Extent) (hpos : ∀ x ∈ l, 0 < x.ex_length) :
    (l.flatMap extBlocks).length = sum_lens l := by
  induction l with
  | nil => rfl
  | cons x ts ih =>
    have hx := hpos x (List.mem_cons_self x ts)
    have hih := ih (fun y hy => hpos y (List.mem_cons_of_mem x hy))
    simp only [List.flatMap_cons, List.length_append, extBlocks, List.length_map,
      List.length_range, sum_lens, List.map_cons, List.sum_cons] at *
    omega

/-- C5 counterexample.  The claim says the iterator of every normalized
inode yields exactly `Σ ex_length` blocks, each `ex_bn + k` with
`k < ex_length`.  On `disk5`, `read_inode` returns a normalized inode
whose indirect expansion produced a zero-length extent (indirect
parsing does not filter these); its iterator yields 13 blocks although
`Σ ex_length = 12` — the extra block is the zero-length extent's
`ex_bn + 0` with no `k < ex_length = 0` available. -/
theorem c5_zero_length_counterexample :
    (read_inode disk5 efsT 0).map (fun i => (i.block_list.length, sum_lens i.extents)) =
      .ok (13, 12) ∧ (13 : Nat) ≠ 12 :=
  ⟨by decide, by decide⟩

/-- C5 as amended: the block iterator yields, per extent in file order,
`max 1 ex_length` consecutive block numbers starting at `ex_bn` (a
zero-length extent — possible only via indirect expansion — yields its
base block once); in particular, for every inode all of whose extents
have positive length it yields exactly `Σ ex_length` blocks, the blocks
`ex_bn + k` for `k < ex_length` of each extent in order, as the claim
states. -/
theorem c5_block_iterator (i : Inode) :
    i.block_list = i.extents.flatMap extBlocks ∧
    ((∀ x ∈ i.extents, 0 < x.ex_length) →
      i.block_list =
        i.extents.flatMap (fun x => (List.range x.ex_length).map (fun k => x.ex_bn + k)) ∧
      i.block_list.length = sum_lens i.extents) := by
  have h1 : i.block_list = i.extents.flatMap extBlocks := by
    unfold Inode.block_list
    exact run_iter_spec i i.extents 0 _ (List.drop_zero i.extents)
      (le_trans (max_one_sum_le i.extents) (by omega))
  refine ⟨h1, fun hpos => ⟨?_, ?_⟩⟩
  · rw [h1]
    exact flatMap_extBlocks_pos i.extents hpos
  · rw [h1]
    exact flatMap_extBlocks_length i.extents hpos

/-- C5 witness: the positive-length characterization applied to the
two-extent inode `inodeW`. -/
theorem c5_witness :
    inodeW.block_list =
      inodeW.extents.flatMap (fun x => (List.range x.ex_length).map (fun k => x.ex_bn + k)) ∧
    inodeW.block_list.length = sum_lens inodeW.extents :=
  (c5_block_iterator inodeW).2 (by decide)

/-- Inverting one step of the contiguity fold. -/
theorem check_extents_from_cons (off : Nat) (e : Extent) (t : List Extent)
    (h : check_extents_from off (e :: t) = .ok ()) :
    e.ex_offset = off ∧ check_extents_from (off + e.ex_length) t = .ok () := by
  unfold check_extents_from at h
  by_cases he : e.ex_offset = off
  · rw [if_pos he] at h
    exact ⟨he, h⟩
  · rw [if_neg he] at h
    cases h

/-- The contiguity fold either succeeds or fails with `Value`. -/
theorem check_extents_from_cases : ∀ (l : List Extent) (off : Nat),
    check_extents_from off l = .ok () ∨ check_extents_from off l = .error .Value := by
  intro l
  induction l with
  | nil => intro off; left; rfl
  | cons e t ih =>
    intro off
    unfold check_extents_from
    by_cases he : e.ex_offset = off
    · rw [if_pos he]
      exact ih (off + e.ex_length)
    · rw [if_neg he]
      right
      rfl

/-- The contiguity fold succeeds exactly when every extent's logical
offset is the base plus the lengths of all extents before it. -/
theorem check_extents_from_ok : ∀ (l : List Extent) (off : Nat),
    check_extents_from off l = .ok () ↔
      ∀ (j : Nat) (h : j < l.length),
        (l.get ⟨j, h⟩).ex_offset = off + sum_lens (l.take j) := by
  intro l
  induction l with
  | nil =>
    intro off
    constructor
    · intro _ j hj
      simp at hj
    · intro _
      rfl
  | cons e t ih =>
    intro off
    constructor
    · intro h j hj
      obtain ⟨he, ht⟩ := check_extents_from_cons off e t h
      cases j with
      | zero => simpa [sum_lens] using he
      | succ j =>
        have := (ih (off + e.ex_length)).mp ht j (by simpa using hj)
        simp only [List.get_cons_succ, List.take_succ_cons, sum_lens, List.map_cons,
          List.sum_cons] at *
        omega
    · intro h
      have he : e.ex_offset = off := by
        have := h 0 (by simp)
        simpa [sum_lens] using this
      unfold check_extents_from
      rw [if_pos he]
      refine (ih (off + e.ex_length)).mpr fun j hj => ?_
      have := h (j + 1) (by simpa using hj)
      simp only [List.get_cons_succ, List.take_succ_cons, sum_lens, List.map_cons,
        List.sum_cons] at *
      omega

/-- A list passing the contiguity fold has nondecreasing logical
offsets. -/
theorem check_extents_from_sorted : ∀ (l : List Extent) (off : Nat),
    check_extents_from off l = .ok () →
    List.Chain' (fun a b => a.ex_offset ≤ b.ex_offset) l := by
  intro l
  induction l with
  | nil =>
    intro off _
    simp
  | cons e t ih =>
    intro off h
    obtain ⟨he, ht⟩ := check_extents_from_cons off e t h
    cases t with
    | nil => simp
    | cons x t' =>
      obtain ⟨hx, _⟩ := check_extents_from_cons _ x t' ht
      exact List.chain'_cons.mpr ⟨by omega, ih (off + e.ex_length) ht⟩

/-- A successful `normalize_extents` ran the contiguity check on
exactly the extent list it returned. -/
theorem normalize_extents_ok (disk : Disk) (efs : Efs) (i i' : Inode)
    (h : normalize_extents disk efs i = .ok i') :
    check_extents i'.extents = .ok () := by
  unfold normalize_extents at h
  simp only [bind, Except.bind] at h
  cases hex : expand_extents disk efs i.num_extents i.extents with
  | error e => rw [hex] at h; cases h
  | ok ex =>
    rw [hex] at h
    dsimp only at h
    cases hch : check_extents (sort_extents ex) with
    | error e => rw [hch] at h; cases h
    | ok u =>
      cases u
      rw [hch] at h
      dsimp only at h
      cases h
      exact hch

/-- A successful `read_inode` went through `normalize_extents`. -/
theorem read_inode_ok (disk : Disk) (efs : Efs) (n : Nat) (i : Inode)
    (h : read_inode disk efs n = .ok i) :
    ∃ i0, normalize_extents disk efs i0 = .ok i := by
  unfold read_inode at h
  simp only [bind, Except.bind] at h
  cases hr : read_raw_inode disk efs n with
  | error e => rw [hr] at h; cases h
  | ok raw =>
    rw [hr] at h
    dsimp only at h
    cases ht : Inode.try_from raw with
    | error e => rw [ht] at h; cases h
    | ok i0 =>
      rw [ht] at h
      dsimp only at h
      exact ⟨i0, h⟩

/-- C4.  Every inode returned by `read_inode` has an extent list whose
logical offsets are exactly the running sums of the prior lengths
(hence sorted ascending by logical offset); and any extent list
violating that property makes the contiguity check — and with it the
whole normalization — fail with `Value`. -/
theorem c4_extents_contiguous (disk : Disk) (efs : Efs) (n : Nat) (i : Inode) :
    (read_inode disk efs n = .ok i →
      (∀ (j : Nat) (h : j < i.extents.length),
        (i.extents.get ⟨j, h⟩).ex_offset = sum_lens (i.extents.take j)) ∧
      List.Chain' (fun a b => a.ex_offset ≤ b.ex_offset) i.extents) ∧
    (∀ l : List Extent,
      (¬ ∀ (j : Nat) (h : j < l.length),
        (l.get ⟨j, h⟩).ex_offset = sum_lens (l.take j)) →
      check_extents l = .error .Value) ∧
    (∀ (i0 : Inode) (ex : List Extent),
      expand_extents disk efs i0.num_extents i0.extents = .ok ex →
      check_extents (sort_extents ex) = .error .Value →
      normalize_extents disk efs i0 = .error .Value) := by
  refine ⟨fun h => ?_, fun l hl => ?_, fun i0 ex hex hch => ?_⟩
  · obtain ⟨i0, hn⟩ := read_inode_ok disk efs n i h
    have hc := normalize_extents_ok disk efs i0 i hn
    have hp := (check_extents_from_ok i.extents 0).mp hc
    refine ⟨fun j hj => by simpa using hp j hj, ?_⟩
    exact check_extents_from_sorted i.extents 0 hc
  · rcases check_extents_from_cases l 0 with hok | herr
    · exact absurd (fun j hj => by simpa using (check_extents_from_ok l 0).mp hok j hj) hl
    · exact herr
  · unfold normalize_extents
    simp only [bind, Except.bind, hex, hch]

/-- C7.  Directory-block slot resolution: a block listing more than 63
slots fails `Value` before any slot is touched; otherwise the slots are
resolved in order, where a slot whose compact offset is below 2 fails
`Bounds`, a real offset `(compact * 2) - 4` at or past 508 fails
`Bounds`, and an in-range offset decodes the entry at that position of
the space region. -/
theorem c7_dir_slot_resolution (db : DirectoryBlock) (slot : Nat) :
    (63 < db.slots → db.dir_entries = .error .Value) ∧
    (db.slots ≤ 63 → db.dir_entries = resolve_slots db.space 0 db.slots) ∧
    (db.space.getD slot 0 < 2 → resolve_slot db.space slot = .error .Bounds) ∧
    (2 ≤ db.space.getD slot 0 → 508 ≤ db.space.getD slot 0 * 2 - 4 →
      resolve_slot db.space slot = .error .Bounds) ∧
    (2 ≤ db.space.getD slot 0 → db.space.getD slot 0 * 2 - 4 < 508 →
      resolve_slot db.space slot =
        DirectoryEntry.parse (db.space.drop (db.space.getD slot 0 * 2 - 4))) := by
  refine ⟨fun h => ?_, fun h => ?_, fun h => ?_, fun h2 h5 => ?_, fun h2 h5 => ?_⟩
  · unfold DirectoryBlock.dir_entries
    rw [if_pos h]
  · unfold DirectoryBlock.dir_entries
    rw [if_neg (Nat.not_lt.mpr h)]
  · simp only [resolve_slot]
    rw [if_pos h]
  · simp only [resolve_slot]
    rw [if_neg (Nat.not_lt.mpr h2), if_pos h5]
  · simp only [resolve_slot]
    rw [if_neg (Nat.not_lt.mpr h2), if_neg (Nat.not_le.mpr h5)]

/-- C7 witness: slot resolution on concrete blocks — an over-long slot
table, a compact offset below the floor, a compact offset whose real
offset overruns the space region, and the fixture block's first slot
resolving to the entry at space offset 500. -/
theorem c7_witness :
    (DirectoryBlock.mk 0 64 []).dir_entries = .error .Value ∧
    resolve_slot (DirectoryBlock.mk 0 1 [1]).space 0 = .error .Bounds ∧
    resolve_slot (DirectoryBlock.mk 0 1 [256]).space 0 = .error .Bounds ∧
    resolve_slot (DirectoryBlock.mk 0 2 space8).space 0 =
      DirectoryEntry.parse (space8.drop 500) :=
  ⟨(c7_dir_slot_resolution ⟨0, 64, []⟩ 0).1 (by decide),
   (c7_dir_slot_resolution ⟨0, 1, [1]⟩ 0).2.2.1 (by decide),
   (c7_dir_slot_resolution ⟨0, 1, [256]⟩ 0).2.2.2.1 (by decide) (by decide),
   ((c7_dir_slot_resolution ⟨0, 2, space8⟩ 0).2.2.2.2 (by decide) (by decide)).trans
     (by decide)⟩

/-- Full case characterization of the superblock conversion: it either
fails with `Value` (and then one of its six checks fired) or succeeds
with exactly the derived geometry, all five signed fields
non-negative. -/
theorem efs_try_from_char (sb : EfsSuperblock) (ssz : Nat) :
    (efs_try_from sb ssz = .error .Value ∧
      (sb.fs_size < 0 ∨ sb.fs_firstcg < 0 ∨ sb.fs_cgfsize < 0 ∨ sb.fs_cgisize * 512 < 0 ∨
        sb.fs_cgisize * 512 % 128 ≠ 0 ∨ sb.fs_ncg < 0)) ∨
    (¬ sb.fs_size < 0 ∧ ¬ sb.fs_firstcg < 0 ∧ ¬ sb.fs_cgfsize < 0 ∧
      ¬ sb.fs_cgisize * 512 < 0 ∧ ¬ sb.fs_ncg < 0 ∧
      efs_try_from sb ssz =
        .ok ⟨ssz, 0, (sb.fs_size.toNat * ssz) % U64, sb.fs_firstcg.toNat,
          sb.fs_cgfsize.toNat, (sb.fs_cgisize * 512).toNat / 128, sb.fs_ncg.toNat⟩) := by
  unfold efs_try_from
  by_cases h1 : sb.fs_size < 0
  · rw [if_pos h1]
    exact Or.inl ⟨rfl, Or.inl h1⟩
  rw [if_neg h1]
  by_cases h2 : sb.fs_firstcg < 0
  · rw [if_pos h2]
    exact Or.inl ⟨rfl, Or.inr (Or.inl h2)⟩
  rw [if_neg h2]
  by_cases h3 : sb.fs_cgfsize < 0
  · rw [if_pos h3]
    exact Or.inl ⟨rfl, Or.inr (Or.inr (Or.inl h3))⟩
  rw [if_neg h3]
  by_cases h4 : sb.fs_cgisize * 512 < 0
  · rw [if_pos h4]
    exact Or.inl ⟨rfl, Or.inr (Or.inr (Or.inr (Or.inl h4)))⟩
  rw [if_neg h4]
  by_cases h5 : sb.fs_cgisize * 512 % 128 ≠ 0
  · rw [if_pos h5]
    exact Or.inl ⟨rfl, Or.inr (Or.inr (Or.inr (Or.inr (Or.inl h5))))⟩
  rw [if_neg h5]
  by_cases h6 : sb.fs_ncg < 0
  · rw [if_pos h6]
    exact Or.inl ⟨rfl, Or.inr (Or.inr (Or.inr (Or.inr (Or.inr h6))))⟩
  rw [if_neg h6]
  exact Or.inr ⟨h1, h2, h3, h4, h6, rfl⟩

/-- C9.  For every accepted superblock the derived geometry has
`size = fs_size * sector_sz` bytes (stated below the `u64` overflow
threshold, which any real sector size satisfies) and
`cg_inodes = (fs_cgisize * 512) / 128`; conversion fails with `Value`
whenever any of the five signed geometry fields is negative; and the
divisibility failure the spec mentions is vacuous — `fs_cgisize * 512`
is always divisible by 128. -/
theorem c9_superblock_geometry (sb : EfsSuperblock) (ssz : Nat) :
    (∀ efs : Efs, efs_try_from sb ssz = .ok efs →
      sb.fs_size.toNat * ssz < U64 →
      efs.size = sb.fs_size.toNat * ssz ∧
      efs.cg_inodes = sb.fs_cgisize.toNat * 512 / 128) ∧
    ((sb.fs_size < 0 ∨ sb.fs_firstcg < 0 ∨ sb.fs_cgfsize < 0 ∨ sb.fs_cgisize < 0 ∨
      sb.fs_ncg < 0) → efs_try_from sb ssz = .error .Value) ∧
    (¬ ((128 : Int) ∣ sb.fs_cgisize * 512) → efs_try_from sb ssz = .error .Value) := by
  refine ⟨fun efs h hlt => ?_, fun hneg => ?_, fun hndvd => ?_⟩
  · rcases efs_try_from_char sb ssz with ⟨herr, _⟩ | ⟨h1, h2, h3, h4, h6, hok⟩
    · rw [herr] at h
      cases h
    · rw [hok] at h
      cases h
      have htn : (sb.fs_cgisize * 512).toNat = sb.fs_cgisize.toNat * 512 := by omega
      exact ⟨Nat.mod_eq_of_lt hlt, by rw [htn]⟩
  · rcases efs_try_from_char sb ssz with ⟨herr, _⟩ | ⟨h1, h2, h3, h4, h6, hok⟩
    · exact herr
    · exfalso
      rcases hneg with h | h | h | h | h <;> omega
  · exfalso
    exact hndvd ⟨sb.fs_cgisize * 4, by ring⟩

/-- C9 witness: the spec's boundary scenario 2 (`fs_size = 100000`,
`sector_sz = 512` gives `size = 51200000`, `cg_inodes = 8`) plus a
negative `fs_size` rejected with `Value`. -/
theorem c9_witness :
    (efsW.size = (100000 : Int).toNat * 512 ∧
      efsW.cg_inodes = (2 : Int).toNat * 512 / 128) ∧
    efs_try_from ⟨-1, 0, 0, 0, 0⟩ 512 = .error .Value :=
  ⟨(c9_superblock_geometry sbW 512).1 efsW (by decide) (by decide),
   (c9_superblock_geometry ⟨-1, 0, 0, 0, 0⟩ 512).2.1 (Or.inl (by decide))⟩

/-- C4 witness: the contiguity facts applied to the normalized inode of
the directory fixture, and the `Value` failure on a list starting at a
nonzero logical offset. -/
theorem c4_witness :
    ((∀ (j : Nat) (h : j < dirInodeVal.extents.length),
        (dirInodeVal.extents.get ⟨j, h⟩).ex_offset = sum_lens (dirInodeVal.extents.take j)) ∧
      List.Chain' (fun a b => a.ex_offset ≤ b.ex_offset) dirInodeVal.extents) ∧
    check_extents [⟨1, 1, 5⟩] = .error .Value := by
  refine ⟨(c4_extents_contiguous disk8 efsT 2 dirInodeVal).1 (by decide), ?_⟩
  exact (c4_extents_contiguous disk8 efsT 2 dirInodeVal).2.1 [⟨1, 1, 5⟩]
    (fun hall => absurd (hall 0 (by decide)) (by decide))

/-- Totality of the byte-string order: two byte strings are equal or
one is strictly below the other. -/
theorem bytesLt_total : ∀ a b : List Nat, a = b ∨ bytesLt a b = true ∨ bytesLt b a = true := by
  intro a
  induction a with
  | nil =>
    intro b
    cases b with
    | nil => exact Or.inl rfl
    | cons y bs => exact Or.inr (Or.inl rfl)
  | cons x as ih =>
    intro b
    cases b with
    | nil => exact Or.inr (Or.inr rfl)
    | cons y bs =>
      rcases Nat.lt_trichotomy x y with h | h | h
      · exact Or.inr (Or.inl (by simp [bytesLt, h]))
      · subst h
        rcases ih bs with he | hlt | hgt
        · exact Or.inl (by rw [he])
        · exact Or.inr (Or.inl (by simp [bytesLt, hlt]))
        · exact Or.inr (Or.inr (by simp [bytesLt, hgt]))
      · exact Or.inr (Or.inr (by simp [bytesLt, h, Nat.lt_asymm h]))

/-- Extending a sorted map downward with a key below its head keeps it
sorted. -/
theorem keysSorted_cons (k0 : List Nat) (v0 : Nat × Inode) (X : DirMap)
    (hX : keysSorted X = true) (hhd : ∀ p ∈ X.head?, bytesLt k0 p.1 = true) :
    keysSorted ((k0, v0) :: X) = true := by
  cases X with
  | nil => rfl
  | cons p rest =>
    have := hhd p rfl
    simp [keysSorted, this, hX]

/-- Inverting `keysSorted` on a cons cell. -/
theorem keysSorted_tail (k0 : List Nat) (v0 : Nat × Inode) (X : DirMap)
    (h : keysSorted ((k0, v0) :: X) = true) :
    keysSorted X = true ∧ ∀ p ∈ X.head?, bytesLt k0 p.1 = true := by
  cases X with
  | nil => exact ⟨rfl, by simp⟩
  | cons p rest =>
    simp only [keysSorted, Bool.and_eq_true] at h
    refine ⟨h.2, ?_⟩
    intro q hq
    simp only [List.head?_cons, Option.mem_def, Option.some.injEq] at hq
    rw [← hq]
    exact h.1

/-- The head of a map after insertion is the inserted key or the old
head. -/
theorem mapInsert_head (m : DirMap) (k : List Nat) (v : Nat × Inode) :
    ∀ p ∈ (mapInsert m k v).head?, p.1 = k ∨ ∃ q ∈ m.head?, p.1 = q.1 := by
  cases m with
  | nil =>
    intro p hp
    simp only [mapInsert, List.head?_cons, Option.mem_def, Option.some.injEq] at hp
    exact Or.inl (by rw [← hp])
  | cons q rest =>
    obtain ⟨k0, v0⟩ := q
    intro p hp
    simp only [mapInsert] at hp
    by_cases hlt : bytesLt k k0 = true
    · rw [if_pos hlt] at hp
      simp only [List.head?_cons, Option.mem_def, Option.some.injEq] at hp
      exact Or.inl (by rw [← hp])
    · rw [if_neg hlt] at hp
      by_cases heq : k = k0
      · rw [if_pos heq] at hp
        simp only [List.head?_cons, Option.mem_def, Option.some.injEq] at hp
        exact Or.inl (by rw [← hp])
      · rw [if_neg heq] at hp
        simp only [List.head?_cons, Option.mem_def, Option.some.injEq] at hp
        exact Or.inr ⟨(k0, v0), rfl, by rw [← hp]⟩

/-- `BTreeMap::insert` keeps the key order strictly sorted. -/
theorem mapInsert_sorted : ∀ (m : DirMap) (k : List Nat) (v : Nat × Inode),
    keysSorted m = true → keysSorted (mapInsert m k v) = true := by
  intro m
  induction m with
  | nil =>
    intro k v _
    rfl
  | cons q rest ih =>
    obtain ⟨k0, v0⟩ := q
    intro k v h
    obtain ⟨hrest, hhd⟩ := keysSorted_tail k0 v0 rest h
    simp only [mapInsert]
    by_cases hlt : bytesLt k k0 = true
    · rw [if_pos hlt]
      refine keysSorted_cons k v ((k0, v0) :: rest) h ?_
      intro p hp
      simp only [List.head?_cons, Option.mem_def, Option.some.injEq] at hp
      rw [← hp]
      exact hlt
    · rw [if_neg hlt]
      by_cases heq : k = k0
      · rw [if_pos heq]
        refine keysSorted_cons k v rest hrest ?_
        intro p hp
        rw [heq]
        exact hhd p hp
      · rw [if_neg heq]
        refine keysSorted_cons k0 v0 (mapInsert rest k v) (ih k v hrest) ?_
        intro p hp
        rcases mapInsert_head rest k v p hp with hk | ⟨q, hq, hpq⟩
        · rw [hk]
          rcases bytesLt_total k k0 with he | hl | hg
          · exact absurd he heq
          · exact absurd hl hlt
          · exact hg
        · rw [hpq]
          exact hhd q hq

/-- Looking up the key just inserted yields the new value. -/
theorem mapLookup_insert_self : ∀ (m : DirMap) (k : List Nat) (v : Nat × Inode),
    mapLookup (mapInsert m k v) k = some v := by
  intro m
  induction m with
  | nil =>
    intro k v
    simp [mapInsert, mapLookup]
  | cons q rest ih =>
    obtain ⟨k0, v0⟩ := q
    intro k v
    simp only [mapInsert]
    by_cases hlt : bytesLt k k0 = true
    · rw [if_pos hlt]
      simp [mapLookup]
    · rw [if_neg hlt]
      by_cases heq : k = k0
      · rw [if_pos heq]
        simp [mapLookup]
      · rw [if_neg heq]
        simp only [mapLookup]
        rw [if_neg heq]
        exact ih k v

/-- Inserting a different key does not change a lookup. -/
theorem mapLookup_insert_ne : ∀ (m : DirMap) (kIns k : List Nat) (v : Nat × Inode),
    k ≠ kIns → mapLookup (mapInsert m kIns v) k = mapLookup m k := by
  intro m
  induction m with
  | nil =>
    intro kIns k v hne
    simp [mapInsert, mapLookup, hne]
  | cons q rest ih =>
    obtain ⟨k0, v0⟩ := q
    intro kIns k v hne
    simp only [mapInsert]
    by_cases hlt : bytesLt kIns k0 = true
    · rw [if_pos hlt]
      simp only [mapLookup]
      rw [if_neg hne]
    · rw [if_neg hlt]
      by_cases heq : kIns = k0
      · rw [if_pos heq]
        simp only [mapLookup]
        rw [if_neg hne, if_neg (heq ▸ hne)]
      · rw [if_neg heq]
        simp only [mapLookup]
        by_cases hk0 : k = k0
        · rw [if_pos hk0, if_pos hk0]
        · rw [if_neg hk0, if_neg hk0]
          exact ih kIns k v hne

/-- Inverting a successful entry processing: the name was valid UTF-8,
the referenced inode was read, and the pair was inserted under the
name. -/
theorem process_entry_ok (disk : Disk) (efs : Efs) (m : DirMap) (e : DirectoryEntry)
    (m' : DirMap) (h : process_entry disk efs m e = .ok m') :
    ∃ ino, utf8Valid e.d_name = true ∧ read_inode disk efs e.inode = .ok ino ∧
      m' = mapInsert m e.d_name (e.inode, ino) := by
  unfold process_entry at h
  by_cases hu : utf8Valid e.d_name
  · rw [if_pos hu] at h
    simp only [bind, Except.bind] at h
    cases hr : read_inode disk efs e.inode with
    | error er => rw [hr] at h; cases h
    | ok ino =>
      rw [hr] at h
      dsimp only at h
      cases h
      exact ⟨ino, hu, rfl, rfl⟩
  · rw [if_neg hu] at h
    cases h

/-- Entry processing distributes over list append. -/
theorem process_entries_append (disk : Disk) (efs : Efs) :
    ∀ (l1 l2 : List DirectoryEntry) (m : DirMap),
      process_entries disk efs m (l1 ++ l2) =
        (process_entries disk efs m l1).bind
          (fun m' => process_entries disk efs m' l2) := by
  intro l1
  induction l1 with
  | nil => intro l2 m; rfl
  | cons e t ih =>
    intro l2 m
    simp only [List.cons_append, process_entries, bind, Except.bind]
    cases process_entry disk efs m e with
    | error err => rfl
    | ok m' => exact ih l2 m'

/-- Entry processing preserves the key order. -/
theorem process_entries_sorted (disk : Disk) (efs : Efs) :
    ∀ (ents : List DirectoryEntry) (m M : DirMap), keysSorted m = true →
      process_entries disk efs m ents = .ok M → keysSorted M = true := by
  intro ents
  induction ents with
  | nil =>
    intro m M hs h
    cases h
    exact hs
  | cons e t ih =>
    intro m M hs h
    simp only [process_entries, bind, Except.bind] at h
    cases hp : process_entry disk efs m e with
    | error er => rw [hp] at h; cases h
    | ok m' =>
      rw [hp] at h
      obtain ⟨ino, _, _, hm'⟩ := process_entry_ok disk efs m e m' hp
      exact ih m' M (hm' ▸ mapInsert_sorted m e.d_name (e.inode, ino) hs) h

/-- Block processing preserves the key order. -/
theorem process_block_sorted (disk : Disk) (efs : Efs) (m : DirMap) (blk : Nat) (M : DirMap)
    (hs : keysSorted m = true) (h : process_block disk efs m blk = .ok M) :
    keysSorted M = true := by
  unfold process_block at h
  simp only [bind, Except.bind] at h
  cases h1 : efs.check_read_block blk 512 with
  | error er => rw [h1] at h; cases h
  | ok u1 =>
    rw [h1] at h
    dsimp only at h
    cases h2 : efs.seek_block blk with
    | error er => rw [h2] at h; cases h
    | ok u2 =>
      rw [h2] at h
      dsimp only at h
      cases h3 : readBytes disk (efs.block_absolute blk) 512 with
      | error er => rw [h3] at h; cases h
      | ok bytes =>
        rw [h3] at h
        dsimp only at h
        cases h4 : DirectoryBlock.parse bytes with
        | error er => rw [h4] at h; cases h
        | ok db =>
          rw [h4] at h
          dsimp only at h
          cases h5 : db.dir_entries with
          | error er => rw [h5] at h; cases h
          | ok ents =>
            rw [h5] at h
            dsimp only at h
            exact process_entries_sorted disk efs ents m M hs h

/-- Processing a list of blocks preserves the key order. -/
theorem process_blocks_sorted (disk : Disk) (efs : Efs) :
    ∀ (blks : List Nat) (m M : DirMap), keysSorted m = true →
      process_blocks disk efs m blks = .ok M → keysSorted M = true := by
  intro blks
  induction blks with
  | nil =>
    intro m M hs h
    cases h
    exact hs
  | cons b t ih =>
    intro m M hs h
    simp only [process_blocks, bind, Except.bind] at h
    cases hb : process_block disk efs m b with
    | error er => rw [hb] at h; cases h
    | ok m' =>
      rw [hb] at h
      exact ih m' M (process_block_sorted disk efs m b m' hs hb) h

/-- C8.  `read_dir` rejects an inode that is not a directory with
`Value` straight after reading it, before touching any directory block;
and every successfully returned directory has its name-to-inode map in
strictly ascending name order (the `BTreeMap` order on the name
bytes). -/
theorem c8_read_dir (disk : Disk) (efs : Efs) (n : Nat) :
    (∀ i : Inode, read_inode disk efs n = .ok i → i.inode_type ≠ .Directory →
      read_dir disk efs n = .error .Value) ∧
    (∀ d : Directory, read_dir disk efs n = .ok d → keysSorted d.entries = true) := by
  constructor
  · intro i hi hnd
    unfold read_dir
    simp only [bind, Except.bind, hi]
    rw [if_pos hnd]
  · intro d hd
    unfold read_dir at hd
    simp only [bind, Except.bind] at hd
    cases hi : read_inode disk efs n with
    | error er => rw [hi] at hd; cases hd
    | ok di =>
      rw [hi] at hd
      dsimp only at hd
      by_cases hdir : di.inode_type ≠ .Directory
      · rw [if_pos hdir] at hd
        cases hd
      · rw [if_neg hdir] at hd
        cases hb : process_blocks disk efs [] di.block_list with
        | error er => rw [hb] at hd; cases hd
        | ok entries =>
          rw [hb] at hd
          dsimp only at hd
          cases hd
          exact process_blocks_sorted disk efs di.block_list [] entries rfl hb

/-- C8 witness: reading a directory listing from the regular-file inode
of the shortfall image fails `Value`, and the fixture directory's
returned map is sorted by name. -/
theorem c8_witness :
    read_dir disk3 efsT 0 = .error .Value ∧ keysSorted dir8Val.entries = true :=
  ⟨(c8_read_dir disk3 efsT 0).1 shortInodeVal (by decide) (by decide),
   (c8_read_dir disk8 efsT 2).2 dir8Val (by decide)⟩

/-- Lookups of a name no later entry carries are unchanged by
processing those entries. -/
theorem process_entries_lookup_untouched (disk : Disk) (efs : Efs) (kk : List Nat) :
    ∀ (ents : List DirectoryEntry) (m M : DirMap),
      (∀ e ∈ ents, e.d_name ≠ kk) →
      process_entries disk efs m ents = .ok M →
      mapLookup M kk = mapLookup m kk := by
  intro ents
  induction ents with
  | nil =>
    intro m M _ h
    cases h
    rfl
  | cons e t ih =>
    intro m M hne h
    simp only [process_entries, bind, Except.bind] at h
    cases hp : process_entry disk efs m e with
    | error er => rw [hp] at h; cases h
    | ok m' =>
      rw [hp] at h
      obtain ⟨ino, _, _, hm'⟩ := process_entry_ok disk efs m e m' hp
      rw [ih m' M (fun x hx => hne x (List.mem_cons_of_mem e hx)) h, hm',
        mapLookup_insert_ne m e.d_name kk (e.inode, ino)
          (fun hkk => hne e (List.mem_cons_self e t) hkk.symm)]

/-- C10.  Duplicate names never make `read_dir` fail: processing a
list of entries succeeds exactly when each entry individually converts
and reads (independently of the accumulated map and of any name
collisions), and when two entries carry the same name the returned map
keeps the `(inode id, inode)` pair of the entry processed later in
block order, silently discarding the earlier one. -/
theorem c10_duplicate_names :
    (∀ (disk : Disk) (efs : Efs) (m : DirMap) (ents : List DirectoryEntry),
      (process_entries disk efs m ents).isOk =
        ents.all (fun e => utf8Valid e.d_name && (read_inode disk efs e.inode).isOk)) ∧
    (∀ (disk : Disk) (efs : Efs) (m : DirMap) (pre mid post : List DirectoryEntry)
      (e1 e2 : DirectoryEntry) (M : DirMap) (ino2 : Inode),
      e1.d_name = e2.d_name →
      (∀ e ∈ post, e.d_name ≠ e2.d_name) →
      read_inode disk efs e2.inode = .ok ino2 →
      process_entries disk efs m (pre ++ e1 :: (mid ++ e2 :: post)) = .ok M →
      mapLookup M e2.d_name = some (e2.inode, ino2)) := by
  constructor
  · intro disk efs m ents
    induction ents generalizing m with
    | nil => rfl
    | cons e t ih =>
      simp only [process_entries, process_entry, List.all_cons]
      by_cases hu : utf8Valid e.d_name
      · rw [if_pos hu]
        simp only [hu, Bool.true_and, bind, Except.bind]
        cases hr : read_inode disk efs e.inode with
        | error er => rfl
        | ok ino => exact ih (mapInsert m e.d_name (e.inode, ino))
      · rw [if_neg hu]
        simp [hu, bind, Except.bind, Except.isOk, Except.toBool]
  · intro disk efs m pre mid post e1 e2 M ino2 _ hpost hino hall
    rw [process_entries_append] at hall
    simp only [bind, Except.bind] at hall
    cases h1 : process_entries disk efs m pre with
    | error er => rw [h1] at hall; cases hall
    | ok m1 =>
      rw [h1] at hall
      simp only [process_entries, bind, Except.bind] at hall
      cases h2 : process_entry disk efs m1 e1 with
      | error er => rw [h2] at hall; cases hall
      | ok m2 =>
        rw [h2] at hall
        dsimp only at hall
        rw [process_entries_append] at hall
        simp only [bind, Except.bind] at hall
        cases h3 : process_entries disk efs m2 mid with
        | error er => rw [h3] at hall; cases hall
        | ok m3 =>
          rw [h3] at hall
          dsimp only at hall
          simp only [process_entries, bind, Except.bind] at hall
          cases h4 : process_entry disk efs m3 e2 with
          | error er => rw [h4] at hall; cases hall
          | ok m4 =>
            rw [h4] at hall
            obtain ⟨ino, _, hino', hm4⟩ := process_entry_ok disk efs m3 e2 m4 h4
            rw [hino] at hino'
            cases hino'
            rw [process_entries_lookup_untouched disk efs e2.d_name post m4 M hpost hall,
              hm4, mapLookup_insert_self]

/-- C10 witness: processing the two same-named entries `a -> 0` and
`a -> 1` succeeds and the map keeps the later pair `(1, fileInode)`;
and the success of the processing equals the per-entry success
conjunction. -/
theorem c10_witness :
    mapLookup mDup [97] = some (1, fileInode) ∧
    (process_entries disk8 efsT [] [entA0, entA1]).isOk =
      [entA0, entA1].all
        (fun e => utf8Valid e.d_name && (read_inode disk8 efsT e.inode).isOk) :=
  ⟨c10_duplicate_names.2 disk8 efsT [] [] [] [] entA0 entA1 mDup fileInode rfl
     (by intro e he; cases he) (by decide) (by decide),
   c10_duplicate_names.1 disk8 efsT [] [entA0, entA1]⟩
